import Mathlib

/-!
Verification of the CubeChip-SDL sources against their natural-language
specification.  Each section shallowly embeds one component of the C++
source (Map2D.hpp, the MemoryBanks implementation, HomeDirManager,
FrameLimiter, GameFileChecker) as executable Lean definitions and proves
the spec claims about them.
-/

namespace CubeChip

/-! ## MapRow (Map2D.hpp, `MapRow` class)

`MapRow<T>` is a `std::vector<T>` of numeric elements.  Its compound
row-row operators loop `for i < min(len a, len b)` updating `a[i]`
in place and leave the tail of `a` untouched.  We embed a row as
`List ℚ` and each operator as a structural recursion that applies the
element operation over the common prefix and keeps the tail of the
left row. -/

/-- Elementwise in-place update of the left row by the right row over the
common prefix, keeping the remaining tail of the left row: the shape of
every `MapRow::operator§=(const MapRow&)` loop. -/
def MapRow.zipPrefix (f : ℚ → ℚ → ℚ) : List ℚ → List ℚ → List ℚ
  | [], _ => []
  | a, [] => a
  | x :: xs, y :: ys => f x y :: MapRow.zipPrefix f xs ys

/-- `MapRow::operator-=(const MapRow& other)` (Map2D.hpp lines 58-66).
The loop body reads `(*this)[i] += other[i];` — it adds. -/
def MapRow.subAssign (a b : List ℚ) : List ℚ :=
  MapRow.zipPrefix (fun x y => x + y) a b

/-- `MapRow::operator/=(const MapRow& other)` (Map2D.hpp lines 96-108).
At each index the divisor is tested against zero first; a zero divisor
throws `std::domain_error` leaving the current element and the tail
untouched while the already-processed prefix stays mutated.  The result
pairs the row state at the moment of return/throw with a flag telling
whether the exception was raised. -/
def MapRow.divAssign : List ℚ → List ℚ → List ℚ × Bool
  | [], _ => ([], false)
  | a, [] => (a, false)
  | x :: xs, y :: ys =>
    if y = 0 then (x :: xs, true)
    else
      let r := MapRow.divAssign xs ys
      (x / y :: r.1, r.2)

@[simp] lemma MapRow.zipPrefix_nil_left (f : ℚ → ℚ → ℚ) (b : List ℚ) :
    MapRow.zipPrefix f [] b = [] := by cases b <;> rfl

@[simp] lemma MapRow.zipPrefix_nil_right (f : ℚ → ℚ → ℚ) (a : List ℚ) :
    MapRow.zipPrefix f a [] = a := by cases a <;> rfl

lemma MapRow.zipPrefix_length (f : ℚ → ℚ → ℚ) :
    ∀ a b : List ℚ, (MapRow.zipPrefix f a b).length = a.length := by
  intro a
  induction a with
  | nil => intro b; simp
  | cons x xs ih =>
    intro b
    cases b with
    | nil => simp
    | cons y ys => simp [MapRow.zipPrefix, ih]

lemma MapRow.zipPrefix_getElem? (f : ℚ → ℚ → ℚ) :
    ∀ (a b : List ℚ) (i : ℕ),
      (MapRow.zipPrefix f a b)[i]? =
        if i < min a.length b.length then
          (a[i]?.bind fun x => (b[i]?.map fun y => f x y))
        else a[i]? := by
  intro a
  induction a with
  | nil => intro b i; simp
  | cons x xs ih =>
    intro b i
    cases b with
    | nil => simp
    | cons y ys =>
      cases i with
      | zero => simp [MapRow.zipPrefix]
      | succ n =>
        have hiff : n + 1 < min (xs.length + 1) (ys.length + 1) ↔
            n < min xs.length ys.length := by omega
        simp only [MapRow.zipPrefix, List.getElem?_cons_succ, ih,
          List.length_cons]
        by_cases h : n < min xs.length ys.length
        · rw [if_pos h, if_pos (hiff.mpr h)]
        · rw [if_neg h, if_neg (fun hc => h (hiff.mp hc))]

lemma MapRow.divAssign_fst_length :
    ∀ a b : List ℚ, (MapRow.divAssign a b).1.length = a.length := by
  intro a
  induction a with
  | nil => intro b; cases b <;> simp [MapRow.divAssign]
  | cons x xs ih =>
    intro b
    cases b with
    | nil => simp [MapRow.divAssign]
    | cons y ys =>
      by_cases hy : y = 0
      · simp [MapRow.divAssign, hy]
      · simp [MapRow.divAssign, hy, ih]

lemma MapRow.divAssign_raised_iff :
    ∀ a b : List ℚ,
      (MapRow.divAssign a b).2 = true ↔
        ∃ k, k < min a.length b.length ∧ b[k]? = some 0 := by
  intro a
  induction a with
  | nil =>
    intro b
    cases b <;> simp [MapRow.divAssign]
  | cons x xs ih =>
    intro b
    cases b with
    | nil => simp [MapRow.divAssign]
    | cons y ys =>
      by_cases hy : y = 0
      · subst hy
        simp only [MapRow.divAssign, if_pos rfl]
        constructor
        · intro _
          exact ⟨0, by simp, by simp⟩
        · intro _; rfl
      · simp only [MapRow.divAssign, if_neg hy]
        rw [ih ys]
        constructor
        · rintro ⟨k, hk, hk0⟩
          refine ⟨k + 1, ?_, by simpa using hk0⟩
          simp only [List.length_cons]
          omega
        · rintro ⟨k, hk, hk0⟩
          cases k with
          | zero => exact absurd (by simpa using hk0) hy
          | succ n =>
            refine ⟨n, ?_, by simpa using hk0⟩
            simp only [List.length_cons] at hk
            omega

lemma MapRow.divAssign_fst_getElem? :
    ∀ (a b : List ℚ) (i : ℕ),
      (MapRow.divAssign a b).1[i]? =
        if i < min a.length b.length ∧ ∀ j, j ≤ i → b[j]? ≠ some 0 then
          a[i]?.bind fun x => b[i]?.map fun y => x / y
        else a[i]? := by
  intro a
  induction a with
  | nil =>
    intro b i
    cases b <;> simp [MapRow.divAssign]
  | cons x xs ih =>
    intro b i
    cases b with
    | nil => simp [MapRow.divAssign]
    | cons y ys =>
      by_cases hy : y = 0
      · subst hy
        rw [if_neg]
        · simp [MapRow.divAssign]
        · rintro ⟨-, hall⟩
          exact hall 0 (Nat.zero_le _) (by simp)
      · cases i with
        | zero =>
          have hcond : 0 < min (x :: xs).length (y :: ys).length ∧
              ∀ j, j ≤ 0 → (y :: ys)[j]? ≠ some 0 := by
            refine ⟨by simp, ?_⟩
            intro j hj
            have hj0 : j = 0 := Nat.le_zero.mp hj
            subst hj0
            simp [hy]
          rw [if_pos hcond]
          simp [MapRow.divAssign, hy]
        | succ n =>
          simp only [MapRow.divAssign, if_neg hy, List.getElem?_cons_succ,
            List.length_cons]
          rw [ih ys n]
          by_cases hc : n < min xs.length ys.length ∧
              ∀ j, j ≤ n → ys[j]? ≠ some 0
          · have hc' : n + 1 < min (xs.length + 1) (ys.length + 1) ∧
                ∀ j, j ≤ n + 1 → (y :: ys)[j]? ≠ some 0 := by
              refine ⟨by omega, ?_⟩
              intro j hj
              cases j with
              | zero => simp [hy]
              | succ m =>
                simpa using hc.2 m (Nat.succ_le_succ_iff.mp hj)
            rw [if_pos hc, if_pos hc']
          · have hc' : ¬(n + 1 < min (xs.length + 1) (ys.length + 1) ∧
                ∀ j, j ≤ n + 1 → (y :: ys)[j]? ≠ some 0) := by
              rintro ⟨hlt, hall⟩
              refine hc ⟨by omega, ?_⟩
              intro j hj
              simpa using hall (j + 1) (Nat.succ_le_succ hj)
            rw [if_neg hc, if_neg hc']

/-- C1: the claim that the in-place row-row subtraction `a -= b` sets
`a[i]` to `a[i] - b[i]` fails on the code: the loop body of
`MapRow::operator-=(const MapRow&)` (Map2D.hpp line 63) reads
`(*this)[i] += other[i];`.  At the input a = [5], b = [2] the embedded
operator yields [7], whereas elementwise subtraction would give [3]. -/
theorem C1_subAssign_adds_instead_of_subtracting :
    MapRow.subAssign [5] [2] = [7] ∧ (5 : ℚ) - 2 ≠ 7 := by
  constructor
  · simp only [MapRow.subAssign, MapRow.zipPrefix]
    norm_num
  · norm_num

/-- C7: in-place row division `a /= b` raises the arithmetic-domain
failure iff some index `k < min (length a) (length b)` has `b[k] = 0`;
at the first such `k`, every element before `k` has already been
replaced by `a[i] / b[i]` and every element at index `≥ k` is
unchanged. -/
theorem C7_rowDiv_domain_failure (a b : List ℚ) :
    ((MapRow.divAssign a b).2 = true ↔
      ∃ k, k < min a.length b.length ∧ b[k]? = some 0) ∧
    (∀ k, k < min a.length b.length → b[k]? = some 0 →
      (∀ j, j < k → b[j]? ≠ some 0) →
      (MapRow.divAssign a b).2 = true ∧
      (∀ i, i < k →
        (MapRow.divAssign a b).1[i]? =
          a[i]?.bind fun x => b[i]?.map fun y => x / y) ∧
      (∀ i, k ≤ i → (MapRow.divAssign a b).1[i]? = a[i]?)) := by
  refine ⟨MapRow.divAssign_raised_iff a b, ?_⟩
  intro k hk hk0 hfirst
  refine ⟨(MapRow.divAssign_raised_iff a b).mpr ⟨k, hk, hk0⟩, ?_, ?_⟩
  · intro i hi
    rw [MapRow.divAssign_fst_getElem?, if_pos]
    exact ⟨by omega, fun j hj => hfirst j (by omega)⟩
  · intro i hi
    rw [MapRow.divAssign_fst_getElem?, if_neg]
    rintro ⟨-, hall⟩
    exact hall k hi hk0

/-- Witness for C7 at a = [4,5,6], b = [2,0,3]: the failure is raised at
k = 1, index 0 has already been divided and indices ≥ 1 are unchanged. -/
theorem C7_rowDiv_domain_failure_witness :
    (MapRow.divAssign [4, 5, 6] [2, 0, 3]).2 = true ∧
    (MapRow.divAssign [4, 5, 6] [2, 0, 3]).1[0]? = some 2 ∧
    (MapRow.divAssign [4, 5, 6] [2, 0, 3]).1[1]? = some 5 := by
  have h := (C7_rowDiv_domain_failure [4, 5, 6] [2, 0, 3]).2 1
    (by norm_num) rfl
    (by
      intro j hj
      have hj0 : j = 0 := by omega
      subst hj0
      simp only [List.getElem?_cons_zero, ne_eq, Option.some.injEq]
      norm_num)
  refine ⟨h.1, ?_, ?_⟩
  · have h0 := h.2.1 0 Nat.zero_lt_one
    rw [h0]
    norm_num
  · have h1 := h.2.2 1 le_rfl
    rw [h1]
    rfl

/-! ## Map2D (Map2D.hpp, `Map2D` class)

The owning matrix holds `mRows * mCols` elements contiguously, row-major.
We embed it with the dimensions and the flat element list; well-formedness
records what the constructor establishes: both dimensions are at least 1
(`max(1, |n|)` clamping) and the storage has exactly `rows * cols`
elements. -/

structure Map2D where
  mRows : ℕ
  mCols : ℕ
  data  : List ℤ
  deriving DecidableEq

def Map2D.size (m : Map2D) : ℕ := m.mRows * m.mCols

/-- Invariants established by every `Map2D` constructor: clamped positive
dimensions and a backing allocation of exactly `rows * cols` elements. -/
def Map2D.WF (m : Map2D) : Prop :=
  1 ≤ m.mRows ∧ 1 ≤ m.mCols ∧ m.data.length = m.size

instance (m : Map2D) : Decidable m.WF := by
  unfold Map2D.WF; infer_instance

/-- `RowProxy::operator=(const RowProxy& other)` (Map2D.hpp lines 725-732):
copies `min(src length, dst length)` leading elements of the source row
over the destination row, keeping the destination's tail. -/
def rowProxyAssign (dst src : List ℤ) : List ℤ :=
  src.take (min src.length dst.length) ++ dst.drop (min src.length dst.length)

/-- The source rows visited by `std::copy(other.begin(), other.end(), ...)`
over a matrix' `RowIterator`: `rows` successive slices of `cols` elements. -/
def rowsOf : ℕ → ℕ → List ℤ → List (List ℤ)
  | 0, _, _ => []
  | r + 1, cols, data => data.take cols :: rowsOf r cols (data.drop cols)

/-- The destination side of the same `std::copy`: each source row is
assigned (via `RowProxy::operator=`) into the next `cols`-element window
of the destination storage, advancing by the destination's row stride. -/
def copyRowsInto (cols : ℕ) (dst : List ℤ) : List (List ℤ) → List ℤ
  | [] => dst
  | row :: rest =>
      rowProxyAssign (dst.take cols) row ++ copyRowsInto cols (dst.drop cols) rest

/-- `Map2D::operator=(const Map2D& other)` (Map2D.hpp lines 1155-1161) for
distinct objects: when the two total sizes agree, `std::copy` walks
`other`'s rows assigning them row-proxy-wise into `this` at `this`'s row
stride, then the row/column counts are adopted; otherwise nothing
happens. -/
def Map2D.assignCopy (a b : Map2D) : Map2D :=
  if a.size = b.size then
    { mRows := b.mRows, mCols := b.mCols,
      data := copyRowsInto a.mCols a.data (rowsOf b.mRows b.mCols b.data) }
  else a

lemma rowsOf_length :
    ∀ (rows cols : ℕ) (data : List ℤ), (rowsOf rows cols data).length = rows := by
  intro rows
  induction rows with
  | zero => intro cols data; rfl
  | succ r ih => intro cols data; simp [rowsOf, ih]

lemma rowsOf_mem_length {cols : ℕ} :
    ∀ {rows : ℕ} {data : List ℤ}, data.length = rows * cols →
      ∀ row ∈ rowsOf rows cols data, row.length = cols := by
  intro rows
  induction rows with
  | zero => intro data _ row hrow; simp [rowsOf] at hrow
  | succ r ih =>
    intro data hlen row hrow
    simp only [rowsOf, List.mem_cons] at hrow
    rcases hrow with h | h
    · subst h
      rw [List.length_take]
      have : cols ≤ data.length := by
        rw [hlen, Nat.succ_mul]
        omega
      omega
    · exact ih (by rw [List.length_drop, hlen, Nat.succ_mul]; omega) row h

lemma rowsOf_join :
    ∀ (rows cols : ℕ) (data : List ℤ), data.length = rows * cols →
      (rowsOf rows cols data).flatten = data := by
  intro rows
  induction rows with
  | zero =>
    intro cols data hlen
    simp only [Nat.zero_mul] at hlen
    simpa [rowsOf] using (List.length_eq_zero.mp hlen).symm
  | succ r ih =>
    intro cols data hlen
    simp only [rowsOf, List.flatten_cons]
    rw [ih cols (data.drop cols) (by rw [List.length_drop, hlen, Nat.succ_mul]; omega)]
    exact List.take_append_drop cols data

lemma copyRowsInto_exact {cols : ℕ} :
    ∀ (rs : List (List ℤ)) (dst : List ℤ),
      (∀ row ∈ rs, row.length = cols) → dst.length = rs.length * cols →
      copyRowsInto cols dst rs = rs.flatten := by
  intro rs
  induction rs with
  | nil =>
    intro dst _ hlen
    simp only [List.length_nil, Nat.zero_mul] at hlen
    simpa [copyRowsInto] using List.length_eq_zero.mp hlen
  | cons row rest ih =>
    intro dst hrows hlen
    have hrow : row.length = cols := hrows row (by simp)
    have hcols : cols ≤ dst.length := by
      rw [hlen, List.length_cons, Nat.succ_mul]; omega
    simp only [copyRowsInto, List.flatten_cons]
    congr 1
    · unfold rowProxyAssign
      rw [List.length_take, hrow]
      have hmin : min cols (min cols dst.length) = cols := by omega
      rw [hmin]
      have htk : (dst.take cols).drop cols = [] :=
        List.drop_eq_nil_of_le (by rw [List.length_take]; omega)
      rw [htk, List.append_nil]
      exact List.take_of_length_le (le_of_eq hrow)
    · exact ih (dst.drop cols) (fun r hr => hrows r (by simp [hr]))
        (by rw [List.length_drop, hlen, List.length_cons, Nat.succ_mul]; omega)

/-- C10's counterexample: a = 2x1 buffer [10, 20] and b = 1x2 buffer
[1, 2] have equal totals, yet copy-assignment produces storage [1, 20]
(only min(b cols, a cols) elements of b's single row land in a's first
row window), not b's contents [1, 2]. -/
theorem C10_assignCopy_shape_counterexample :
    (Map2D.assignCopy ⟨2, 1, [10, 20]⟩ ⟨1, 2, [1, 2]⟩).data = [1, 20] ∧
    ([1, 20] : List ℤ) ≠ [1, 2] := by
  constructor
  · rfl
  · decide

/-- C10 (amended): copy-assigning `b` into a distinct buffer `a` leaves
`a` entirely unchanged when the total element counts differ (raising no
error), and copies `b`'s contents and dimensions when the two buffers
additionally have the same row and column counts; with equal totals but
different shapes the row-proxy-wise copy does not reproduce `b`'s
contents. -/
theorem C10_assignCopy_guarded (a b : Map2D) :
    (a.size ≠ b.size → Map2D.assignCopy a b = a) ∧
    (a.WF → b.WF → a.mRows = b.mRows → a.mCols = b.mCols →
      Map2D.assignCopy a b = b) := by
  constructor
  · intro hne
    unfold Map2D.assignCopy
    rw [if_neg hne]
  · rintro ⟨_, _, haLen⟩ ⟨_, _, hbLen⟩ hR hC
    have hsz : a.size = b.size := by
      unfold Map2D.size at *
      rw [hR, hC]
    unfold Map2D.assignCopy
    rw [if_pos hsz]
    have hrows := @rowsOf_mem_length b.mCols b.mRows b.data hbLen
    have hjoin := rowsOf_join b.mRows b.mCols b.data hbLen
    have hcopy : copyRowsInto a.mCols a.data (rowsOf b.mRows b.mCols b.data) =
        (rowsOf b.mRows b.mCols b.data).flatten := by
      apply copyRowsInto_exact _ _ (by rw [hC]; exact hrows)
      rw [rowsOf_length, haLen, hsz, hC]
      rfl
    rw [hcopy, hjoin]

/-- Witness for C10 at concrete buffers: a size mismatch leaves the
destination untouched, and a same-shape assignment copies everything. -/
theorem C10_assignCopy_guarded_witness :
    Map2D.assignCopy ⟨1, 2, [7, 8]⟩ ⟨1, 3, [1, 2, 3]⟩ = ⟨1, 2, [7, 8]⟩ ∧
    Map2D.assignCopy ⟨1, 2, [7, 8]⟩ ⟨1, 2, [1, 2]⟩ = ⟨1, 2, [1, 2]⟩ := by
  constructor
  · exact (C10_assignCopy_guarded ⟨1, 2, [7, 8]⟩ ⟨1, 3, [1, 2, 3]⟩).1 (by decide)
  · exact (C10_assignCopy_guarded ⟨1, 2, [7, 8]⟩ ⟨1, 2, [1, 2]⟩).2
      (by decide) (by decide) rfl rfl

/-! ## In-place transpose (Map2D.hpp, `Map2D::transpose`, lines 1561-1573)

The C++ code walks `a = 1 .. size()-2`; for each `a` it follows the index
permutation `b ↦ (b % mRows) * mCols + (b / mRows)` starting from `a`
until the iterate is `≥ a`, then swaps positions `a` and that iterate,
and finally swaps the stored row/column counts.  The inner `do`-`while`
is embedded with explicit fuel `rows * cols`; `chase_spec` below shows
this fuel always suffices, so the embedding agrees with the unbounded
C++ loop. -/

/-- The successor index `(b % mRows) * mCols + (b / mRows)` of the
cycle-following permutation. -/
def transposeSucc (rows cols b : ℕ) : ℕ := (b % rows) * cols + (b / rows)

/-- The `do { b = ...; } while (b < a)` loop, with fuel. -/
def chase (rows cols a : ℕ) : ℕ → ℕ → ℕ
  | 0, b => b
  | fuel + 1, b =>
    let c := transposeSucc rows cols b
    if c < a then chase rows cols a fuel c else c

lemma transposeSucc_lt {rows cols : ℕ} (hr : 1 ≤ rows) (hc : 1 ≤ cols)
    {b : ℕ} (hb : b < rows * cols) :
    transposeSucc rows cols b < rows * cols := by
  unfold transposeSucc
  have h1 : b % rows < rows := Nat.mod_lt _ (by omega)
  have h2 : b / rows < cols :=
    (Nat.div_lt_iff_lt_mul (by omega)).mpr (by rw [Nat.mul_comm]; exact hb)
  calc (b % rows) * cols + b / rows < (b % rows) * cols + cols := by omega
    _ = (b % rows + 1) * cols := by ring
    _ ≤ rows * cols := Nat.mul_le_mul_right _ (by omega)

lemma transposeSucc_proj {rows cols : ℕ} (hr : 1 ≤ rows) (hc : 1 ≤ cols)
    {b : ℕ} (hb : b < rows * cols) :
    transposeSucc rows cols b / cols = b % rows ∧
    transposeSucc rows cols b % cols = b / rows := by
  have h2 : b / rows < cols :=
    (Nat.div_lt_iff_lt_mul (by omega)).mpr (by rw [Nat.mul_comm]; exact hb)
  unfold transposeSucc
  constructor
  · rw [Nat.mul_comm (b % rows) cols, Nat.mul_add_div (by omega),
      Nat.div_eq_of_lt h2, Nat.add_zero]
  · rw [Nat.mul_comm (b % rows) cols, Nat.mul_add_mod, Nat.mod_eq_of_lt h2]

lemma transposeSucc_inj {rows cols : ℕ} (hr : 1 ≤ rows) (hc : 1 ≤ cols)
    {b1 b2 : ℕ} (h1 : b1 < rows * cols) (h2 : b2 < rows * cols)
    (heq : transposeSucc rows cols b1 = transposeSucc rows cols b2) :
    b1 = b2 := by
  have p1 := transposeSucc_proj hr hc h1
  have p2 := transposeSucc_proj hr hc h2
  have hm : b1 % rows = b2 % rows := by
    rw [← p1.1, ← p2.1, heq]
  have hd : b1 / rows = b2 / rows := by
    rw [← p1.2, ← p2.2, heq]
  have e1 := Nat.div_add_mod b1 rows
  have e2 := Nat.div_add_mod b2 rows
  rw [hd, hm] at e1
  omega

lemma transposeSucc_zero (rows cols : ℕ) : transposeSucc rows cols 0 = 0 := by
  simp [transposeSucc]

lemma transposeSucc_last {rows cols : ℕ} (hr : 1 ≤ rows) (hc : 1 ≤ cols) :
    transposeSucc rows cols (rows * cols - 1) = rows * cols - 1 := by
  have hkey : rows * cols - 1 = rows * (cols - 1) + (rows - 1) := by
    have h : rows * cols = rows * (cols - 1) + rows := by
      conv_lhs => rw [show cols = (cols - 1) + 1 by omega]
      ring
    omega
  unfold transposeSucc
  rw [hkey, Nat.mul_add_mod, Nat.mod_eq_of_lt (by omega),
    Nat.mul_add_div (by omega), Nat.div_eq_of_lt (by omega), Nat.add_zero]
  have h : rows * cols = rows * (cols - 1) + rows := by
    conv_lhs => rw [show cols = (cols - 1) + 1 by omega]
    ring
  have h' : (rows - 1) * cols + cols = rows * cols := by
    have : (rows - 1) * cols + cols = ((rows - 1) + 1) * cols := by ring
    rw [this, show rows - 1 + 1 = rows by omega]
  omega

lemma transposeSucc_iterate_lt {rows cols : ℕ} (hr : 1 ≤ rows) (hc : 1 ≤ cols)
    {b : ℕ} (hb : b < rows * cols) (m : ℕ) :
    (transposeSucc rows cols)^[m] b < rows * cols := by
  induction m with
  | zero => simpa
  | succ n ih =>
    rw [Function.iterate_succ_apply']
    exact transposeSucc_lt hr hc ih

lemma transposeSucc_iterate_inj {rows cols : ℕ} (hr : 1 ≤ rows) (hc : 1 ≤ cols)
    {m b1 b2 : ℕ} (h1 : b1 < rows * cols) (h2 : b2 < rows * cols)
    (he : (transposeSucc rows cols)^[m] b1 = (transposeSucc rows cols)^[m] b2) :
    b1 = b2 := by
  induction m with
  | zero => simpa using he
  | succ n ih =>
    apply ih
    rw [Function.iterate_succ_apply', Function.iterate_succ_apply'] at he
    exact transposeSucc_inj hr hc
      (transposeSucc_iterate_lt hr hc h1 n)
      (transposeSucc_iterate_lt hr hc h2 n) he

/-- The first strictly positive iterate index at which the chase from `b`
reaches a value `≥ a`: exactly the stopping point of the `do`-`while`. -/
def IsFirstHit (f : ℕ → ℕ) (a b k : ℕ) : Prop :=
  1 ≤ k ∧ a ≤ f^[k] b ∧ ∀ m, 1 ≤ m → m < k → f^[m] b < a

lemma isFirstHit_unique {f : ℕ → ℕ} {a b k1 k2 : ℕ}
    (h1 : IsFirstHit f a b k1) (h2 : IsFirstHit f a b k2) : k1 = k2 := by
  by_contra hne
  rcases Nat.lt_or_ge k1 k2 with h | h
  · exact absurd h1.2.1 (Nat.not_le.mpr (h2.2.2 k1 h1.1 h))
  · have hlt : k2 < k1 := by omega
    exact absurd h2.2.1 (Nat.not_le.mpr (h1.2.2 k2 h2.1 hlt))

lemma chase_spec (rows cols a : ℕ) :
    ∀ (fuel k b : ℕ), IsFirstHit (transposeSucc rows cols) a b k → k ≤ fuel →
      chase rows cols a fuel b = (transposeSucc rows cols)^[k] b := by
  intro fuel
  induction fuel with
  | zero => intro k b hk hf; exact absurd hk.1 (by omega)
  | succ n ih =>
    intro k b hk hf
    simp only [chase]
    by_cases hlt : transposeSucc rows cols b < a
    · have hk1 : k ≠ 1 := by
        rintro rfl
        have h21 := hk.2.1
        rw [Function.iterate_one] at h21
        omega
      have hkk : 2 ≤ k := by
        have := hk.1; omega
      have hfh : IsFirstHit (transposeSucc rows cols) a
          (transposeSucc rows cols b) (k - 1) := by
        refine ⟨by omega, ?_, ?_⟩
        · have : (transposeSucc rows cols)^[k - 1] (transposeSucc rows cols b) =
              (transposeSucc rows cols)^[k] b := by
            rw [← Function.iterate_succ_apply]
            congr 1
            omega
          rw [this]
          exact hk.2.1
        · intro m hm1 hm2
          have : (transposeSucc rows cols)^[m] (transposeSucc rows cols b) =
              (transposeSucc rows cols)^[m + 1] b := by
            rw [← Function.iterate_succ_apply]
          rw [this]
          exact hk.2.2 (m + 1) (by omega) (by omega)
      rw [if_pos hlt, ih (k - 1) _ hfh (by omega)]
      rw [← Function.iterate_succ_apply]
      congr 1
      omega
    · have hk1 : k = 1 := by
        by_contra h
        have h2 : 2 ≤ k := by have := hk.1; omega
        have := hk.2.2 1 le_rfl (by omega)
        rw [Function.iterate_one] at this
        omega
      subst hk1
      rw [if_neg hlt, Function.iterate_one]

lemma exists_firstHit {rows cols : ℕ} (hr : 1 ≤ rows) (hc : 1 ≤ cols)
    {a c : ℕ} (ha : 1 ≤ a) (hac : a ≤ c) (hcN : c < rows * cols) :
    ∃ k, IsFirstHit (transposeSucc rows cols) a c k ∧ k ≤ rows * cols := by
  classical
  have hex : ∃ k, (1 ≤ k ∧ k ≤ rows * cols) ∧
      a ≤ (transposeSucc rows cols)^[k] c := by
    by_contra hno
    push_neg at hno
    have hmaps : ∀ k ∈ Finset.Icc 1 (rows * cols),
        (transposeSucc rows cols)^[k] c ∈ Finset.range a := by
      intro k hk
      rw [Finset.mem_Icc] at hk
      rw [Finset.mem_range]
      exact hno k ⟨hk.1, hk.2⟩
    have hcard : (Finset.range a).card < (Finset.Icc 1 (rows * cols)).card := by
      rw [Finset.card_range, Nat.card_Icc]
      omega
    obtain ⟨i, hi, j, hj, hne, heq⟩ :=
      Finset.exists_ne_map_eq_of_card_lt_of_maps_to hcard hmaps
    rw [Finset.mem_Icc] at hi hj
    -- w.l.o.g. i < j; cancel i iterations to get a periodic return to c
    have key : ∀ i j : ℕ, 1 ≤ i → i ≤ rows * cols → 1 ≤ j →
        j ≤ rows * cols → i < j →
        (transposeSucc rows cols)^[i] c = (transposeSucc rows cols)^[j] c →
        False := by
      intro i j hi1 hi2 hj1 hj2 hij he
      have hdecomp : (transposeSucc rows cols)^[j] c =
          (transposeSucc rows cols)^[i] ((transposeSucc rows cols)^[j - i] c) := by
        rw [← Function.iterate_add_apply]
        congr 1
        omega
      rw [hdecomp] at he
      have hcc : c = (transposeSucc rows cols)^[j - i] c :=
        transposeSucc_iterate_inj hr hc hcN
          (transposeSucc_iterate_lt hr hc hcN _) he
      have hret := hno (j - i) ⟨by omega, by omega⟩
      rw [← hcc] at hret
      omega
    rcases Nat.lt_or_ge i j with h | h
    · exact key i j hi.1 hi.2 hj.1 hj.2 h heq
    · have : j < i := by omega
      exact key j i hj.1 hj.2 hi.1 hi.2 this heq.symm
  obtain ⟨k0, hk0⟩ := hex
  have hP : ∃ k, 1 ≤ k ∧ a ≤ (transposeSucc rows cols)^[k] c :=
    ⟨k0, hk0.1.1, hk0.2⟩
  refine ⟨Nat.find hP, ⟨(Nat.find_spec hP).1, (Nat.find_spec hP).2, ?_⟩, ?_⟩
  · intro m hm1 hm2
    have hmin := Nat.find_min hP hm2
    push_neg at hmin
    exact Nat.lt_of_not_le (by
      intro hle
      exact absurd hle (Nat.not_le.mpr (hmin hm1)))
  · exact le_trans (Nat.find_min' hP ⟨hk0.1.1, hk0.2⟩) hk0.1.2

/-- `std::iter_swap(mBegin() + a, mBegin() + b)` on the flat storage. -/
def listSwap (l : List ℤ) (i j : ℕ) : List ℤ :=
  (l.set i (l.getD j 0)).set j (l.getD i 0)

lemma listSwap_length (l : List ℤ) (i j : ℕ) :
    (listSwap l i j).length = l.length := by
  simp [listSwap]

lemma listSwap_getD (l : List ℤ) {i j : ℕ} (hi : i < l.length)
    (hj : j < l.length) (m : ℕ) :
    (listSwap l i j).getD m 0 =
      if m = j then l.getD i 0
      else if m = i then l.getD j 0
      else l.getD m 0 := by
  unfold listSwap
  rw [List.getD_eq_getElem?_getD, List.getD_eq_getElem?_getD l m]
  by_cases hmj : m = j
  · subst hmj
    rw [if_pos rfl, List.getElem?_set_eq_of_lt _ (by simpa using hj)]
    rw [List.getD_eq_getElem?_getD]
    rfl
  · rw [if_neg hmj, List.getElem?_set_ne (fun h => hmj h.symm)]
    by_cases hmi : m = i
    · subst hmi
      rw [if_pos rfl, List.getElem?_set_eq_of_lt _ hi]
      rw [List.getD_eq_getElem?_getD]
      rfl
    · rw [if_neg hmi, List.getElem?_set_ne (fun h => hmi h.symm)]

/-- One iteration of the outer `for` loop at index `a`: compute the chase
target and swap if it differs from `a`. -/
def transposeStep (rows cols fuel : ℕ) (d : List ℤ) (a : ℕ) : List ℤ :=
  let b := chase rows cols a fuel a
  if b ≠ a then listSwap d a b else d

/-- The outer loop `for (a = 1; a < size()-1; ...)`. -/
def transposeLoop (rows cols : ℕ) (data : List ℤ) : List ℤ :=
  (List.range' 1 (rows * cols - 2)).foldl
    (transposeStep rows cols (rows * cols)) data

/-- `Map2D::transpose` (Map2D.hpp lines 1561-1573): cycle-following swaps
guarded by `mRows > 1 || mCols > 1`, then the stored dimensions are
exchanged. -/
def Map2D.transpose (m : Map2D) : Map2D :=
  { mRows := m.mCols
    mCols := m.mRows
    data :=
      if 1 < m.mRows ∨ 1 < m.mCols then transposeLoop m.mRows m.mCols m.data
      else m.data }

/-- Loop invariant before processing index `a`: positions `< a` hold
their final value `orig[succ j]`, and for every pending `c ≥ a` the
element `orig[succ c]` destined for position `c` currently sits at the
first iterate of the chase permutation from `c` that is `≥ a`. -/
def TransInv (rows cols a : ℕ) (orig d : List ℤ) : Prop :=
  d.length = orig.length ∧
  (∀ j, j < a → d.getD j 0 = orig.getD (transposeSucc rows cols j) 0) ∧
  (∀ c k, a ≤ c → c < rows * cols →
    IsFirstHit (transposeSucc rows cols) a c k →
    d.getD ((transposeSucc rows cols)^[k] c) 0 =
      orig.getD (transposeSucc rows cols c) 0)

lemma transposeSucc_iterate_period {rows cols : ℕ} {a p : ℕ}
    (hp : (transposeSucc rows cols)^[p] a = a) (q : ℕ) :
    (transposeSucc rows cols)^[q * p] a = a := by
  induction q with
  | zero => simp
  | succ n ih =>
    rw [show (n + 1) * p = n * p + p by ring, Function.iterate_add_apply, hp, ih]

/-- If the first `≥ a` iterate from `a` itself is `a` (a no-swap step) and
some `c > a` reaches `a`, we get a contradiction: `c` would lie on `a`'s
cycle strictly below `a`. -/
lemma no_selfhit_of_reach {rows cols : ℕ} (hr : 1 ≤ rows) (hc : 1 ≤ cols)
    {a c ka k : ℕ} (haN : a < rows * cols) (hcN : c < rows * cols)
    (hca : a < c)
    (hka : IsFirstHit (transposeSucc rows cols) a a ka)
    (hkaa : (transposeSucc rows cols)^[ka] a = a)
    (hk : IsFirstHit (transposeSucc rows cols) a c k)
    (hkc : (transposeSucc rows cols)^[k] c = a) :
    False := by
  -- c = succ^[k * ka - k] a, then reduce the exponent modulo ka
  have hkak : k ≤ k * ka := Nat.le_mul_of_pos_right k (by have := hka.1; omega)
  have hper : (transposeSucc rows cols)^[k * ka] a = a :=
    transposeSucc_iterate_period hkaa k
  have hchain : (transposeSucc rows cols)^[k]
      ((transposeSucc rows cols)^[k * ka - k] a) =
      (transposeSucc rows cols)^[k] c := by
    rw [← Function.iterate_add_apply, hkc]
    rw [show k + (k * ka - k) = k * ka by omega, hper]
  have hce : (transposeSucc rows cols)^[k * ka - k] a = c :=
    transposeSucc_iterate_inj hr hc
      (transposeSucc_iterate_lt hr hc haN _) hcN hchain
  -- write k * ka - k = ka * q + r
  have hdm := Nat.div_add_mod (k * ka - k) ka
  have hrlt : (k * ka - k) % ka < ka := Nat.mod_lt _ (by have := hka.1; omega)
  have hsplit : (transposeSucc rows cols)^[k * ka - k] a =
      (transposeSucc rows cols)^[(k * ka - k) % ka] a := by
    conv_lhs => rw [← hdm]
    rw [Nat.add_comm, Function.iterate_add_apply,
      Nat.mul_comm ka ((k * ka - k) / ka),
      transposeSucc_iterate_period hkaa]
  rw [hsplit] at hce
  rcases Nat.eq_zero_or_pos ((k * ka - k) % ka) with hz | hpos
  · rw [hz] at hce
    simp only [Function.iterate_zero_apply] at hce
    omega
  · have := hka.2.2 _ hpos hrlt
    rw [hce] at this
    omega

/-- Two chases that stop at the same place with all intermediates `< a`
must have started at the same point (distinct starts `≥ a` collide). -/
lemma firstHit_collision {rows cols : ℕ} (hr : 1 ≤ rows) (hc : 1 ≤ cols)
    {a c c' k k' : ℕ} (hcN : c < rows * cols) (hcN' : c' < rows * cols)
    (hac : a ≤ c) (hac' : a ≤ c')
    (hk : IsFirstHit (transposeSucc rows cols) a c k)
    (hk' : IsFirstHit (transposeSucc rows cols) a c' k')
    (he : (transposeSucc rows cols)^[k] c = (transposeSucc rows cols)^[k'] c') :
    c = c' := by
  obtain ⟨hk1, hkge, hkint⟩ := hk
  obtain ⟨hk1', hkge', hkint'⟩ := hk'
  rcases Nat.lt_trichotomy k k' with h | h | h
  · -- c = succ^[k' - k] c', an intermediate of the c' chase, so c < a
    have hchain : (transposeSucc rows cols)^[k]
        ((transposeSucc rows cols)^[k' - k] c') =
        (transposeSucc rows cols)^[k] c := by
      rw [← Function.iterate_add_apply, show k + (k' - k) = k' by omega, he]
    have hce : (transposeSucc rows cols)^[k' - k] c' = c :=
      transposeSucc_iterate_inj hr hc
        (transposeSucc_iterate_lt hr hc hcN' _) hcN hchain
    have hint := hkint' (k' - k) (by omega) (by omega)
    rw [hce] at hint
    omega
  · subst h
    exact transposeSucc_iterate_inj hr hc hcN hcN' he
  · have hchain : (transposeSucc rows cols)^[k']
        ((transposeSucc rows cols)^[k - k'] c) =
        (transposeSucc rows cols)^[k'] c' := by
      rw [← Function.iterate_add_apply, show k' + (k - k') = k by omega, he]
    have hce : (transposeSucc rows cols)^[k - k'] c = c' :=
      transposeSucc_iterate_inj hr hc
        (transposeSucc_iterate_lt hr hc hcN _) hcN' hchain
    have hint := hkint (k - k') (by omega) (by omega)
    rw [hce] at hint
    omega

lemma transInv_step {rows cols : ℕ} (hr : 1 ≤ rows) (hcols : 1 ≤ cols)
    {orig d : List ℤ} (hlen : orig.length = rows * cols)
    {a : ℕ} (ha1 : 1 ≤ a) (ha2 : a + 1 < rows * cols)
    (hinv : TransInv rows cols a orig d) :
    TransInv rows cols (a + 1) orig
      (transposeStep rows cols (rows * cols) d a) := by
  obtain ⟨hdlen, hfin, hpend⟩ := hinv
  have haN : a < rows * cols := by omega
  obtain ⟨ka, hka, hkaN⟩ := exists_firstHit hr hcols ha1 le_rfl haN
  have hchase : chase rows cols a (rows * cols) a =
      (transposeSucc rows cols)^[ka] a := chase_spec rows cols a _ ka a hka hkaN
  have hbN : (transposeSucc rows cols)^[ka] a < rows * cols :=
    transposeSucc_iterate_lt hr hcols haN ka
  have hbge : a ≤ (transposeSucc rows cols)^[ka] a := hka.2.1
  have hnew : ∀ m, (transposeStep rows cols (rows * cols) d a).getD m 0 =
      if m = (transposeSucc rows cols)^[ka] a then d.getD a 0
      else if m = a then d.getD ((transposeSucc rows cols)^[ka] a) 0
      else d.getD m 0 := by
    intro m
    simp only [transposeStep, hchase]
    by_cases hba : (transposeSucc rows cols)^[ka] a = a
    · rw [if_neg (not_not_intro hba), hba]
      by_cases hma : m = a
      · subst hma; rw [if_pos rfl]
      · rw [if_neg hma, if_neg hma]
    · rw [if_pos hba, listSwap_getD d (by omega) (by omega) m]
  refine ⟨?_, ?_, ?_⟩
  · simp only [transposeStep, hchase]
    by_cases hba : (transposeSucc rows cols)^[ka] a = a
    · rw [if_neg (not_not_intro hba)]
      exact hdlen
    · rw [if_pos hba, listSwap_length]
      exact hdlen
  · intro j hj
    rw [hnew j]
    rcases Nat.lt_or_ge j a with hja | hja
    · rw [if_neg (by omega), if_neg (by omega)]
      exact hfin j hja
    · have hja' : j = a := by omega
      rw [hja']
      by_cases hba : (transposeSucc rows cols)^[ka] a = a
      · rw [if_pos hba.symm]
        have h := hpend a ka le_rfl haN hka
        rw [hba] at h
        exact h
      · rw [if_neg (fun h => hba h.symm), if_pos rfl]
        exact hpend a ka le_rfl haN hka
  · intro c k' hc1 hc2 hk'
    obtain ⟨k, hk, hkN⟩ := exists_firstHit hr hcols ha1 (by omega) hc2
    have hold := hpend c k (by omega) hc2 hk
    by_cases hbold : (transposeSucc rows cols)^[k] c = a
    · -- the pending element sits exactly at `a`: after the swap it moves
      -- to the chase target of `a`, which is also its next first hit
      have hbsa : (transposeSucc rows cols)^[ka] a ≠ a := by
        intro h
        exact no_selfhit_of_reach hr hcols haN hc2 (by omega) hka h hk hbold
      have hkk' : IsFirstHit (transposeSucc rows cols) (a + 1) c (k + ka) := by
        refine ⟨by have := hk.1; omega, ?_, ?_⟩
        · rw [show k + ka = ka + k from Nat.add_comm k ka,
            Function.iterate_add_apply, hbold]
          omega
        · intro m hm1 hm2
          rcases Nat.lt_trichotomy m k with hmk | hmk | hmk
          · have := hk.2.2 m hm1 hmk
            omega
          · subst hmk
            rw [hbold]
            omega
          · have heq : (transposeSucc rows cols)^[m] c =
                (transposeSucc rows cols)^[m - k] a := by
              conv_lhs => rw [show m = (m - k) + k by omega]
              rw [Function.iterate_add_apply, hbold]
            rw [heq]
            have := hka.2.2 (m - k) (by omega) (by omega)
            omega
      have hkeq : k' = k + ka := isFirstHit_unique hk' hkk'
      subst hkeq
      rw [hnew _]
      have hiter : (transposeSucc rows cols)^[k + ka] c =
          (transposeSucc rows cols)^[ka] a := by
        rw [show k + ka = ka + k from Nat.add_comm k ka,
          Function.iterate_add_apply, hbold]
      rw [hiter, if_pos rfl]
      rw [hbold] at hold
      exact hold
    · have hbgt : a < (transposeSucc rows cols)^[k] c :=
        lt_of_le_of_ne hk.2.1 (Ne.symm hbold)
      by_cases hcol : (transposeSucc rows cols)^[k] c =
          (transposeSucc rows cols)^[ka] a
      · exfalso
        have := firstHit_collision hr hcols hc2 haN (by omega) le_rfl
          hk hka hcol
        omega
      · have hkk' : IsFirstHit (transposeSucc rows cols) (a + 1) c k := by
          refine ⟨hk.1, by omega, ?_⟩
          intro m hm1 hm2
          have := hk.2.2 m hm1 hm2
          omega
        have hkeq : k' = k := isFirstHit_unique hk' hkk'
        subst hkeq
        rw [hnew _, if_neg hcol, if_neg (by omega)]
        exact hold

lemma transInv_fold {rows cols : ℕ} (hr : 1 ≤ rows) (hcols : 1 ≤ cols)
    {orig : List ℤ} (hlen : orig.length = rows * cols) :
    ∀ (len a0 : ℕ) (d : List ℤ), 1 ≤ a0 → a0 + len + 1 ≤ rows * cols →
      TransInv rows cols a0 orig d →
      TransInv rows cols (a0 + len) orig
        ((List.range' a0 len).foldl (transposeStep rows cols (rows * cols)) d) := by
  intro len
  induction len with
  | zero =>
    intro a0 d h1 h2 hinv
    simpa using hinv
  | succ n ih =>
    intro a0 d h1 h2 hinv
    rw [List.range'_succ, List.foldl_cons]
    have hstep := transInv_step hr hcols hlen h1 (by omega) hinv
    have := ih (a0 + 1) _ (by omega) (by omega) hstep
    rw [show a0 + (n + 1) = a0 + 1 + n by omega]
    exact this

lemma transposeLoop_getD {rows cols : ℕ} (hr : 1 ≤ rows) (hcols : 1 ≤ cols)
    {data : List ℤ} (hlen : data.length = rows * cols) :
    ∀ j, j < rows * cols →
      (transposeLoop rows cols data).getD j 0 =
        data.getD (transposeSucc rows cols j) 0 := by
  have hinit : TransInv rows cols 1 data data := by
    refine ⟨rfl, ?_, ?_⟩
    · intro j hj
      have hj0 : j = 0 := by omega
      rw [hj0, transposeSucc_zero]
    · intro c k hc1 hc2 hkf
      have hfc : 1 ≤ transposeSucc rows cols c := by
        rcases Nat.eq_zero_or_pos (transposeSucc rows cols c) with h0 | h
        · exfalso
          have h00 : transposeSucc rows cols c = transposeSucc rows cols 0 := by
            rw [h0, transposeSucc_zero]
          have := transposeSucc_inj hr hcols hc2 (by positivity) h00
          omega
        · exact h
      have hone : IsFirstHit (transposeSucc rows cols) 1 c 1 := by
        refine ⟨le_rfl, ?_, ?_⟩
        · rw [Function.iterate_one]
          exact hfc
        · intro m hm1 hm2; omega
      have hk1 : k = 1 := isFirstHit_unique hkf hone
      rw [hk1, Function.iterate_one]
  intro j hj
  unfold transposeLoop
  rcases Nat.lt_or_ge (rows * cols) 2 with hN | hN
  · -- size 1: the loop range is empty and index 0 is a fixed point
    have hpos : 0 < rows * cols := Nat.mul_pos hr hcols
    have hN1 : rows * cols = 1 := by omega
    have hj0 : j = 0 := by omega
    rw [hN1]
    simp only [show (1 : ℕ) - 2 = 0 from rfl, List.range', List.foldl_nil]
    rw [hj0, transposeSucc_zero]
  · have hfold := transInv_fold hr hcols hlen (rows * cols - 2) 1 data
      le_rfl (by omega) hinit
    rw [show 1 + (rows * cols - 2) = rows * cols - 1 by omega] at hfold
    obtain ⟨hflen, hffin, hfpend⟩ := hfold
    rcases Nat.lt_or_ge j (rows * cols - 1) with hjf | hjf
    · exact hffin j hjf
    · have hjN : j = rows * cols - 1 := by omega
      have hlast := transposeSucc_last hr hcols
      have hone : IsFirstHit (transposeSucc rows cols) (rows * cols - 1)
          (rows * cols - 1) 1 := by
        refine ⟨le_rfl, ?_, ?_⟩
        · rw [Function.iterate_one, hlast]
        · intro m hm1 hm2; omega
      have hval := hfpend (rows * cols - 1) 1 le_rfl (by omega) hone
      rw [Function.iterate_one, hlast] at hval
      rw [hjN, hlast]
      exact hval

lemma foldl_transposeStep_length (rows cols fuel : ℕ) :
    ∀ (l : List ℕ) (d : List ℤ),
      (l.foldl (transposeStep rows cols fuel) d).length = d.length := by
  intro l
  induction l with
  | nil => intro d; rfl
  | cons x xs ih =>
    intro d
    rw [List.foldl_cons, ih]
    simp only [transposeStep]
    by_cases hba : chase rows cols x fuel x ≠ x
    · rw [if_pos hba, listSwap_length]
    · rw [if_neg hba]

lemma transposeLoop_length (rows cols : ℕ) (data : List ℤ) :
    (transposeLoop rows cols data).length = data.length :=
  foldl_transposeStep_length rows cols (rows * cols) _ data

lemma Map2D.transpose_data_length (m : Map2D) :
    m.transpose.data.length = m.data.length := by
  unfold Map2D.transpose
  by_cases h : 1 < m.mRows ∨ 1 < m.mCols
  · simp only [if_pos h, transposeLoop_length]
  · simp only [if_neg h]

lemma Map2D.transpose_data_getD (m : Map2D) (h : m.WF) :
    ∀ j, j < m.size →
      m.transpose.data.getD j 0 =
        m.data.getD (transposeSucc m.mRows m.mCols j) 0 := by
  obtain ⟨hr, hcols, hlen⟩ := h
  intro j hj
  unfold Map2D.transpose
  by_cases hguard : 1 < m.mRows ∨ 1 < m.mCols
  · simp only [if_pos hguard]
    exact transposeLoop_getD hr hcols hlen j hj
  · simp only [if_neg hguard]
    push_neg at hguard
    have h1 : m.mRows = 1 := by omega
    have h2 : m.mCols = 1 := by omega
    have hj0 : j = 0 := by
      unfold Map2D.size at hj
      rw [h1, h2] at hj
      omega
    rw [hj0, transposeSucc_zero]

lemma transposeSucc_inverse {rows cols : ℕ} (hr : 1 ≤ rows) (hcols : 1 ≤ cols)
    {j : ℕ} (hj : j < rows * cols) :
    transposeSucc rows cols (transposeSucc cols rows j) = j := by
  have hp := @transposeSucc_proj cols rows hcols hr j
    (by rw [Nat.mul_comm]; exact hj)
  unfold transposeSucc
  unfold transposeSucc at hp
  rw [hp.2, hp.1]
  have h1 := Nat.div_add_mod j cols
  have h2 : (j / cols) * cols = cols * (j / cols) := Nat.mul_comm _ _
  omega

lemma Map2D.ext_of {m1 m2 : Map2D} (h1 : m1.mRows = m2.mRows)
    (h2 : m1.mCols = m2.mCols) (h3 : m1.data = m2.data) : m1 = m2 := by
  cases m1; cases m2
  simp_all

lemma Map2D.transpose_mRows (m : Map2D) : m.transpose.mRows = m.mCols := rfl

lemma Map2D.transpose_mCols (m : Map2D) : m.transpose.mCols = m.mRows := rfl

/-- C6: applying the cycle-following in-place transpose twice restores a
well-formed buffer exactly (dimensions and contents), and one application
to the 2x3 buffer with rows [1,2,3] and [4,5,6] yields the 3x2 buffer
with rows [1,4], [2,5], [3,6]. -/
theorem C6_transpose_involution_and_example :
    (∀ m : Map2D, m.WF → m.transpose.transpose = m) ∧
    Map2D.transpose ⟨2, 3, [1, 2, 3, 4, 5, 6]⟩ = ⟨3, 2, [1, 4, 2, 5, 3, 6]⟩ := by
  constructor
  · intro m hWF
    obtain ⟨hr, hcols, hlen⟩ := hWF
    have hszT : m.transpose.size = m.size := by
      unfold Map2D.size
      rw [Map2D.transpose_mRows, Map2D.transpose_mCols]
      exact Nat.mul_comm _ _
    have hWF1 : m.transpose.WF := by
      refine ⟨?_, ?_, ?_⟩
      · rw [Map2D.transpose_mRows]; exact hcols
      · rw [Map2D.transpose_mCols]; exact hr
      · rw [Map2D.transpose_data_length, hlen, hszT]
    have hlen2 : m.transpose.transpose.data.length = m.data.length := by
      rw [Map2D.transpose_data_length, Map2D.transpose_data_length]
    refine Map2D.ext_of rfl rfl ?_
    have hpt : ∀ j, j < m.size →
        m.transpose.transpose.data.getD j 0 = m.data.getD j 0 := by
      intro j hj
      have h2 := Map2D.transpose_data_getD m.transpose hWF1 j
        (by rw [hszT]; exact hj)
      rw [Map2D.transpose_mRows, Map2D.transpose_mCols] at h2
      have hjm : j < m.mCols * m.mRows := by
        rw [Nat.mul_comm]
        exact hj
      have hx : transposeSucc m.mCols m.mRows j < m.size := by
        have := transposeSucc_lt hcols hr hjm
        unfold Map2D.size
        rw [Nat.mul_comm]
        exact this
      have h1 := Map2D.transpose_data_getD m ⟨hr, hcols, hlen⟩
        (transposeSucc m.mCols m.mRows j) hx
      rw [h2, h1, transposeSucc_inverse hr hcols hj]
    apply List.ext_getElem (by rw [hlen2])
    intro i hi1 hi2
    have hiM : i < m.size := by
      rw [← hlen]
      exact hi2
    have := hpt i hiM
    rw [List.getD_eq_getElem _ _ hi1, List.getD_eq_getElem _ _ hi2] at this
    exact this
  · decide

/-- Witness for C6 at the concrete 2x3 example: transposing it twice
restores the original buffer. -/
theorem C6_transpose_involution_witness :
    Map2D.transpose (Map2D.transpose ⟨2, 3, [1, 2, 3, 4, 5, 6]⟩) =
      ⟨2, 3, [1, 2, 3, 4, 5, 6]⟩ :=
  C6_transpose_involution_and_example.1 ⟨2, 3, [1, 2, 3, 4, 5, 6]⟩ (by decide)

/-! ## MemoryBanks (MemoryBanks.cpp: `modifyViewport`, `flushBuffers`,
`loadPalette`)

The display plane set is 4 owning 2D buffers of pixel bits; a plane is
embedded as its list of rows.  `vm->Mem` is the `MemoryBanks` object
itself, `vm->State.xochip_color` the multicolor flag and
`vm->Plane.selected` the active plane bitmask; both are passed as
parameters.  Elements live in an unsigned type of some bit width `w`, so
`~1` is the mask `2 ^ w - 2`. -/

/-- A display plane: the rows of one owning 2D buffer. -/
abbrev Plane := List (List ℕ)

/-- The viewport operation kinds (`BrushType`). -/
inductive BrushType
  | CLR
  | XOR
  | SUB
  | ADD
  deriving DecidableEq

/-- `Map2D::wipeAll` on one row: default-initialize every element. -/
def wipeRow (row : List ℕ) : List ℕ := row.map (fun _ => 0)

/-- The `for (P = 0; P < 4; ++P)` walk over the plane array, applying a
per-index action. -/
def applyToPlanes (step : ℕ → Plane → Plane) : ℕ → List Plane → List Plane
  | _, [] => []
  | P, p :: rest => step P p :: applyToPlanes step (P + 1) rest

/-- `MemoryBanks::modifyViewport` (MemoryBanks.cpp lines 49-73): without
multicolor mode, wipe plane 0 and return; otherwise, for each plane
selected by the bitmask, apply the requested brush row by row. -/
def modifyViewport (w : ℕ) (xochipColor : Bool) (selected : ℕ)
    (t : BrushType) (planes : List Plane) : List Plane :=
  if xochipColor = false then
    match planes with
    | [] => []
    | p0 :: rest => p0.map wipeRow :: rest
  else
    applyToPlanes
      (fun P p =>
        if selected &&& (1 <<< P) ≠ 0 then
          match t with
          | .CLR => p.map wipeRow
          | .XOR => p.map (fun row => row.map (fun x => x ^^^ 1))
          | .SUB => p.map (fun row => row.map (fun x => x &&& (2 ^ w - 2)))
          | .ADD => p.map (fun row => row.map (fun x => x ||| 1))
        else p)
      0 planes

lemma applyToPlanes_getElem? (step : ℕ → Plane → Plane) :
    ∀ (start : ℕ) (planes : List Plane) (P : ℕ),
      (applyToPlanes step start planes)[P]? =
        (planes[P]?).map (step (start + P)) := by
  intro start planes
  induction planes generalizing start with
  | nil => intro P; simp [applyToPlanes]
  | cons p rest ih =>
    intro P
    cases P with
    | zero => simp [applyToPlanes]
    | succ n =>
      simp only [applyToPlanes, List.getElem?_cons_succ]
      rw [ih (start + 1) n, show start + 1 + n = start + (n + 1) by omega]

/-- C5: with multicolor off, the viewport operation zero-fills plane 0
and leaves every other plane unchanged whatever the kind and bitmask;
with multicolor on, exactly the bitmask-selected planes are mutated —
Clear zero-fills, Xor toggles each element against 1, Subtract ANDs each
element with the complement of 1, Add ORs each element with 1 — and
unselected planes are unchanged. -/
theorem C5_modifyViewport_spec (w : ℕ) (selected : ℕ) (t : BrushType)
    (planes : List Plane) (P : ℕ) :
    ((modifyViewport w false selected t planes)[P]? =
      if P = 0 then (planes[P]?).map (fun p => p.map (fun row => row.map (fun _ => 0)))
      else planes[P]?) ∧
    ((modifyViewport w true selected t planes)[P]? =
      if selected &&& (1 <<< P) ≠ 0 then
        (planes[P]?).map (fun p => p.map (fun row => row.map (fun x =>
          match t with
          | .CLR => 0
          | .XOR => x ^^^ 1
          | .SUB => x &&& (2 ^ w - 2)
          | .ADD => x ||| 1)))
      else planes[P]?) := by
  constructor
  · simp only [modifyViewport, if_pos rfl]
    cases planes with
    | nil =>
      cases P <;> simp
    | cons p0 rest =>
      cases P with
      | zero => simp [wipeRow]
      | succ n => simp
  · simp only [modifyViewport, if_neg (by simp : ¬(true = false))]
    rw [applyToPlanes_getElem?]
    simp only [Nat.zero_add]
    by_cases hsel : selected &&& (1 <<< P) ≠ 0
    · rw [if_pos hsel]
      cases hp : planes[P]? with
      | none => rfl
      | some p =>
        simp only [Option.map_some']
        rw [if_pos hsel]
        cases t <;> simp [wipeRow]
    · rw [if_neg hsel]
      cases hp : planes[P]? with
      | none => rfl
      | some p =>
        simp only [Option.map_some']
        rw [if_neg hsel]

/-! ### flushBuffers -/

structure MemoryBanksState where
  megaPalette : List ℕ
  foregroundBuffer : List ℕ
  backgroundBuffer : List ℕ
  collisionPalette : List ℕ
  deriving DecidableEq

/-- `Map2D::copyLinear(const Map2D&)`: `std::copy_n` of
`min(size(), other.size())` elements from the source into the front of
the destination. -/
def copyLinearBuf (dst src : List ℕ) : List ℕ :=
  src.take (min dst.length src.length) ++ dst.drop (min dst.length src.length)

/-- `Map2D::wipeAll` on a flat buffer. -/
def wipeAllBuf (l : List ℕ) : List ℕ := l.map (fun _ => 0)

/-- `MemoryBanks::flushBuffers` (MemoryBanks.cpp lines 75-86): on the
first flush zero the palette, otherwise copy the background linearly onto
the foreground; then wipe the background and collision buffers.  The
trailing `vm->flushDisplay()` only signals the interpreter and carries no
buffer state. -/
def flushBuffers (firstFlush : Bool) (s : MemoryBanksState) :
    MemoryBanksState :=
  let s1 :=
    if firstFlush then { s with megaPalette := s.megaPalette.map (fun _ => 0) }
    else { s with foregroundBuffer :=
      copyLinearBuf s.foregroundBuffer s.backgroundBuffer }
  let s2 := { s1 with backgroundBuffer := wipeAllBuf s1.backgroundBuffer }
  { s2 with collisionPalette := wipeAllBuf s2.collisionPalette }

/-- C2's counterexample: on the session's first flush the background is
NOT copied onto the foreground — with background [7] and foreground [0],
the foreground stays [0] although the claim requires it to become [7]. -/
theorem C2_flushBuffers_first_flush_counterexample :
    (flushBuffers true ⟨[5], [0], [7], [3]⟩).foregroundBuffer = [0] ∧
    ([0] : List ℕ) ≠ [7] := by
  constructor
  · rfl
  · decide

/-- C2 (amended): on the very first flush the palette is zeroed and the
foreground is left untouched (no copy); on every later flush the
background is copied linearly onto the foreground and the palette is left
untouched; on every flush the background and collision buffers are zeroed
afterwards. -/
theorem C2_flushBuffers_spec (firstFlush : Bool) (s : MemoryBanksState) :
    (flushBuffers firstFlush s).megaPalette =
      (if firstFlush then s.megaPalette.map (fun _ => 0) else s.megaPalette) ∧
    (flushBuffers firstFlush s).foregroundBuffer =
      (if firstFlush then s.foregroundBuffer
       else s.backgroundBuffer.take
            (min s.foregroundBuffer.length s.backgroundBuffer.length) ++
          s.foregroundBuffer.drop
            (min s.foregroundBuffer.length s.backgroundBuffer.length)) ∧
    (flushBuffers firstFlush s).backgroundBuffer =
      s.backgroundBuffer.map (fun _ => 0) ∧
    (flushBuffers firstFlush s).collisionPalette =
      s.collisionPalette.map (fun _ => 0) := by
  cases firstFlush <;>
    exact ⟨rfl, rfl, rfl, rfl⟩

/-! ### loadPalette -/

/-- One 4-byte big-endian ARGB entry assembled from program memory
(`vm->mrw` byte reads). -/
def paletteEntry (mem : ℕ → ℕ) (index : ℕ) : ℕ :=
  mem index <<< 24 ||| mem (index + 1) <<< 16 |||
    mem (index + 2) <<< 8 ||| mem (index + 3)

/-- The loop of `MemoryBanks::loadPalette` (MemoryBanks.cpp lines 88-95):
`for (idx = 0; idx < count; index += 4) megaPalette[++idx] = entry;`. -/
def loadPaletteGo (mem : ℕ → ℕ) (count idx index : ℕ) (pal : List ℕ) :
    List ℕ :=
  if h : idx < count then
    loadPaletteGo mem count (idx + 1) (index + 4)
      (pal.set (idx + 1) (paletteEntry mem index))
  else pal
termination_by count - idx
decreasing_by simp_wf; omega

def loadPalette (mem : ℕ → ℕ) (index count : ℕ) (pal : List ℕ) : List ℕ :=
  loadPaletteGo mem count 0 index pal

set_option maxHeartbeats 1000000 in
lemma loadPaletteGo_getElem? (mem : ℕ → ℕ) (count : ℕ) :
    ∀ (n idx : ℕ), count - idx = n →
      ∀ (index : ℕ) (pal : List ℕ), count < pal.length → ∀ i,
        (loadPaletteGo mem count idx index pal)[i]? =
          if idx + 1 ≤ i ∧ i ≤ count then
            some (paletteEntry mem (index + 4 * (i - (idx + 1))))
          else pal[i]? := by
  intro n
  induction n with
  | zero =>
    intro idx hn index pal hlen i
    rw [loadPaletteGo, dif_neg (by omega)]
    rw [if_neg (by omega)]
  | succ n ih =>
    intro idx hn index pal hlen i
    rw [loadPaletteGo, dif_pos (by omega)]
    rw [ih (idx + 1) (by omega) (index + 4)
      (pal.set (idx + 1) (paletteEntry mem index))
      (by rw [List.length_set]; exact hlen) i]
    by_cases hup : idx + 1 + 1 ≤ i ∧ i ≤ count
    · have hc2 : idx + 1 ≤ i ∧ i ≤ count := ⟨by omega, hup.2⟩
      rw [if_pos hup, if_pos hc2,
        show index + 4 + 4 * (i - (idx + 1 + 1)) = index + 4 * (i - (idx + 1))
          by omega]
    · rw [if_neg hup]
      by_cases hme : i = idx + 1
      · have hc2 : idx + 1 ≤ i ∧ i ≤ count := ⟨by omega, by omega⟩
        rw [if_pos hc2, hme]
        rw [List.getElem?_set_eq_of_lt _ (by omega)]
        rw [show index + 4 * (idx + 1 - (idx + 1)) = index by omega]
      · have hc2 : ¬(idx + 1 ≤ i ∧ i ≤ count) := by omega
        rw [if_neg hc2, List.getElem?_set_ne (fun h => hme h.symm)]

/-- C8: loading `count` palette entries writes exactly slots 1 through
`count`, slot `i` receiving the 4-byte big-endian entry read at
`startAddress + 4 * (i - 1)`; slot 0 (and every slot beyond `count`) is
never written. -/
theorem C8_loadPalette_slots (mem : ℕ → ℕ) (start count : ℕ)
    (pal : List ℕ) (hcount : count < pal.length) (i : ℕ) :
    (1 ≤ i ∧ i ≤ count →
      (loadPalette mem start count pal)[i]? =
        some (paletteEntry mem (start + 4 * (i - 1)))) ∧
    (i = 0 ∨ count < i → (loadPalette mem start count pal)[i]? = pal[i]?) := by
  have h := loadPaletteGo_getElem? mem count (count - 0) 0 rfl start pal hcount i
  constructor
  · intro hi
    unfold loadPalette
    rw [h, if_pos ⟨by omega, hi.2⟩]
  · intro hi
    unfold loadPalette
    rw [h, if_neg (by omega)]

/-- Witness for C8 with identity memory, start 0, count 2 over a 4-slot
palette: slot 1 receives the entry at address 0 and slot 0 stays 9. -/
theorem C8_loadPalette_slots_witness :
    (loadPalette (fun a => a) 0 2 [9, 9, 9, 9])[1]? =
      some (paletteEntry (fun a => a) 0) ∧
    (loadPalette (fun a => a) 0 2 [9, 9, 9, 9])[0]? = some 9 := by
  constructor
  · have h := (C8_loadPalette_slots (fun a => a) 0 2 [9, 9, 9, 9]
      (by decide) 1).1 ⟨le_rfl, by omega⟩
    simpa using h
  · have h := (C8_loadPalette_slots (fun a => a) 0 2 [9, 9, 9, 9]
      (by decide) 0).2 (Or.inl rfl)
    rw [h]
    rfl

/-! ## FrameLimiter (FrameLimiter.cpp / FrameLimiter.hpp)

Wall-clock times are modelled as rationals; each `steady_clock::now()`
read inside `isValidFrame` becomes an explicit parameter.  `std::fmod`
truncates toward zero: `fmod(x, y) = x - y * trunc(x / y)`, exact in IEEE
arithmetic, which the rational model reproduces exactly. -/

structure FrameLimiter where
  initTimeCheck : Bool
  skipFirstPass : Bool
  skipLostFrame : Bool
  lastFrameLost : Bool
  timeFrequency : ℚ
  timeOvershoot : ℚ
  timeVariation : ℚ
  timePastFrame : ℚ
  validFrameCnt : ℕ
  deriving DecidableEq

/-- `std::clamp(v, lo, hi)`. -/
def clampQ (v lo hi : ℚ) : ℚ := if v < lo then lo else if hi < v then hi else v

/-- Truncation toward zero, as `std::fmod` uses. -/
def truncQ (x : ℚ) : ℤ := if 0 ≤ x then ⌊x⌋ else ⌈x⌉

/-- `std::fmod(x, y) = x - y * trunc(x / y)`. -/
def fmodQ (x y : ℚ) : ℚ := x - y * truncQ (x / y)

/-- `FrameLimiter::setFreq` (FrameLimiter.cpp lines 12-20). -/
def FrameLimiter.setFreq (s : FrameLimiter) (framerate : ℚ)
    (firstpass lostframe : Bool) : FrameLimiter :=
  { s with
    timeFrequency := 1000 / clampQ framerate (1 / 2) 1000
    skipFirstPass := firstpass
    skipLostFrame := lostframe }

/-- The constructor: members are value-initialized to zero/false, then
`setFreq` runs. -/
def mkFrameLimiter (framerate : ℚ) (firstpass lostframe : Bool) :
    FrameLimiter :=
  FrameLimiter.setFreq ⟨false, false, false, false, 0, 0, 0, 0, 0⟩
    framerate firstpass lostframe

/-- `FrameLimiter::isValidFrame` (FrameLimiter.cpp lines 30-60).
`tInit`, `tNow` and `tDone` are the three possible `now()` reads, in
program order. -/
def FrameLimiter.isValidFrame (s : FrameLimiter) (tInit tNow tDone : ℚ) :
    FrameLimiter × Bool :=
  let s0 := if s.initTimeCheck then s
    else { s with timePastFrame := tInit, initTimeCheck := true }
  if s0.skipFirstPass then
    ({ s0 with skipFirstPass := false, validFrameCnt := s0.validFrameCnt + 1 }, true)
  else
    let s1 := { s0 with timeVariation := s0.timeOvershoot + (tNow - s0.timePastFrame) }
    if s1.timeVariation < s1.timeFrequency then (s1, false)
    else
      let ov := if s1.skipLostFrame then fmodQ s1.timeVariation s1.timeFrequency
        else s1.timeVariation - s1.timeFrequency
      let s2 := { s1 with timeOvershoot := ov }
      ({ s2 with timePastFrame := tDone, validFrameCnt := s2.validFrameCnt + 1 }, true)

/-- A session: any sequence of pacing checks at arbitrary clock reads. -/
def FrameLimiter.runChecks : FrameLimiter → List (ℚ × ℚ × ℚ) → FrameLimiter
  | s, [] => s
  | s, t :: ts => FrameLimiter.runChecks (s.isValidFrame t.1 t.2.1 t.2.2).1 ts

lemma fmodQ_lt {x y : ℚ} (hy : 0 < y) : fmodQ x y < y := by
  have hy' : y ≠ 0 := ne_of_gt hy
  have hxy : y * (x / y) = x := by field_simp
  unfold fmodQ truncQ
  by_cases hx : 0 ≤ x / y
  · rw [if_pos hx]
    have hfl := Int.sub_one_lt_floor (x / y)
    have hmul := mul_lt_mul_of_pos_left hfl hy
    rw [mul_sub] at hmul
    rw [hxy] at hmul
    push_cast at hmul ⊢
    linarith
  · rw [if_neg hx]
    have hce := Int.le_ceil (x / y)
    have hmul := mul_le_mul_of_nonneg_left hce (le_of_lt hy)
    rw [hxy] at hmul
    linarith

lemma isValidFrame_preserves {s : FrameLimiter}
    (hlost : s.skipLostFrame = true) (hfreq : 0 < s.timeFrequency)
    (hov : s.timeOvershoot < s.timeFrequency) (t1 t2 t3 : ℚ) :
    (s.isValidFrame t1 t2 t3).1.skipLostFrame = true ∧
    (s.isValidFrame t1 t2 t3).1.timeFrequency = s.timeFrequency ∧
    (s.isValidFrame t1 t2 t3).1.timeOvershoot <
      (s.isValidFrame t1 t2 t3).1.timeFrequency := by
  simp only [FrameLimiter.isValidFrame]
  split_ifs <;>
    refine ⟨?_, ?_, ?_⟩ <;>
    simp_all <;>
    exact fmodQ_lt hfreq

/-- C4: for a pacer constructed with `skipLostFrame = true`, the recorded
overshoot stays strictly below the target period after every check of any
session — in particular after every successful one — for all clock reads,
including elapsed times many periods large. -/
theorem C4_overshoot_lt_period (rate : ℚ) (firstpass : Bool)
    (ts : List (ℚ × ℚ × ℚ)) :
    (FrameLimiter.runChecks (mkFrameLimiter rate firstpass true) ts).timeOvershoot <
      (FrameLimiter.runChecks (mkFrameLimiter rate firstpass true) ts).timeFrequency := by
  have hfreq0 : 0 < (mkFrameLimiter rate firstpass true).timeFrequency := by
    unfold mkFrameLimiter FrameLimiter.setFreq clampQ
    simp only
    split_ifs with h1 h2
    · norm_num
    · norm_num
    · apply div_pos (by norm_num)
      linarith
  have hgen : ∀ (l : List (ℚ × ℚ × ℚ)) (s : FrameLimiter),
      s.skipLostFrame = true → 0 < s.timeFrequency →
      s.timeOvershoot < s.timeFrequency →
      (FrameLimiter.runChecks s l).timeOvershoot <
        (FrameLimiter.runChecks s l).timeFrequency := by
    intro l
    induction l with
    | nil => intro s _ _ hov; exact hov
    | cons t ts ih =>
      intro s hlost hfreq hov
      have h := isValidFrame_preserves hlost hfreq hov t.1 t.2.1 t.2.2
      exact ih _ h.1 (h.2.1 ▸ hfreq) h.2.2
  refine hgen ts _ ?_ hfreq0 ?_
  · rfl
  · exact hfreq0

/-! ## HomeDirManager::verifyFile (HomeDirManager.cpp lines 1718-1770 of
the retained concatenation)

The filesystem, path decomposition, and content hashing are external
effects; they enter the model as an environment of pure query functions.
The held program descriptor mirrors the `HomeDirManager` fields. -/

structure FileDescriptor where
  path : String
  file : String
  name : String
  type : String
  sha1 : String
  size : ℕ
  deriving DecidableEq

structure FsEnv where
  fsExists : String → Bool
  isRegularFile : String → Bool
  canOpen : String → Bool
  isGood : String → Bool
  fileSize : String → Option ℕ
  extension : String → String
  filename : String → String
  stem : String → String
  sha1File : String → String

/-- `HomeDirManager::verifyFile`: the rejection cascade followed by the
validator call; only a `true` validator result commits the new
descriptor.  The log calls carry no descriptor state. -/
def verifyFile (env : FsEnv) (validate : ℕ → String → String → Bool)
    (filepath : Option String) (d : FileDescriptor) :
    Bool × FileDescriptor :=
  match filepath with
  | none => (false, d)
  | some p =>
    if env.fsExists p = false ∨ env.isRegularFile p = false then (false, d)
    else if env.canOpen p = false then (false, d)
    else if env.isGood p = false then (false, d)
    else
      match env.fileSize p with
      | none => (false, d)
      | some fsize =>
        if fsize = 0 then (false, d)
        else
          let tempType := env.extension p
          let tempSHA1 := env.sha1File p
          if validate fsize tempType tempSHA1 then
            (true,
              { path := p
                file := env.filename p
                name := env.stem p
                type := tempType
                sha1 := tempSHA1
                size := fsize })
          else (false, d)

/-- C3: verification fails closed — a null, nonexistent, irregular,
unopenable or empty path yields `false` with the held descriptor
untouched; for null and nonexistent paths the result is the same for
every validator (the validator is never invoked); a `false` validator
verdict also leaves the descriptor untouched, and only a `true` verdict
commits the new one. -/
theorem C3_verifyFile_fails_closed (env : FsEnv)
    (validate : ℕ → String → String → Bool) (p : String)
    (d : FileDescriptor) :
    (∀ v' : ℕ → String → String → Bool,
      verifyFile env v' none d = (false, d)) ∧
    (env.fsExists p = false →
      ∀ v' : ℕ → String → String → Bool,
        verifyFile env v' (some p) d = (false, d)) ∧
    (env.isRegularFile p = false →
      verifyFile env validate (some p) d = (false, d)) ∧
    (env.canOpen p = false →
      verifyFile env validate (some p) d = (false, d)) ∧
    (env.fileSize p = some 0 →
      verifyFile env validate (some p) d = (false, d)) ∧
    (∀ fsize, env.fileSize p = some fsize →
      validate fsize (env.extension p) (env.sha1File p) = false →
      verifyFile env validate (some p) d = (false, d)) ∧
    (∀ fsize, env.fsExists p = true → env.isRegularFile p = true →
      env.canOpen p = true → env.isGood p = true →
      env.fileSize p = some fsize → fsize ≠ 0 →
      validate fsize (env.extension p) (env.sha1File p) = true →
      verifyFile env validate (some p) d =
        (true,
          { path := p
            file := env.filename p
            name := env.stem p
            type := env.extension p
            sha1 := env.sha1File p
            size := fsize })) := by
  refine ⟨fun v' => rfl, ?_, ?_, ?_, ?_, ?_, ?_⟩
  · intro hex v'
    simp only [verifyFile]
    rw [if_pos (Or.inl hex)]
  · intro hreg
    simp only [verifyFile]
    rw [if_pos (Or.inr hreg)]
  · intro hopen
    simp only [verifyFile]
    by_cases h1 : env.fsExists p = false ∨ env.isRegularFile p = false
    · rw [if_pos h1]
    · rw [if_neg h1, if_pos hopen]
  · intro hsize
    simp only [verifyFile]
    by_cases h1 : env.fsExists p = false ∨ env.isRegularFile p = false
    · rw [if_pos h1]
    · rw [if_neg h1]
      by_cases h2 : env.canOpen p = false
      · rw [if_pos h2]
      · rw [if_neg h2]
        by_cases h3 : env.isGood p = false
        · rw [if_pos h3]
        · rw [if_neg h3, hsize]
          simp
  · intro fsize hfs hval
    simp only [verifyFile]
    by_cases h1 : env.fsExists p = false ∨ env.isRegularFile p = false
    · rw [if_pos h1]
    · rw [if_neg h1]
      by_cases h2 : env.canOpen p = false
      · rw [if_pos h2]
      · rw [if_neg h2]
        by_cases h3 : env.isGood p = false
        · rw [if_pos h3]
        · rw [if_neg h3, hfs]
          by_cases h4 : fsize = 0
          · simp [h4]
          · simp only [if_neg h4]
            rw [if_neg (by rw [hval]; simp)]
  · intro fsize hex hreg hopen hgood hfs hnz hval
    simp only [verifyFile]
    rw [if_neg (by rw [hex, hreg]; simp), if_neg (by rw [hopen]; simp),
      if_neg (by rw [hgood]; simp), hfs]
    simp only [if_neg hnz, if_pos hval]

/-- Witness for C3 at a concrete environment: a nonexistent path is
rejected for every validator, and a passing validation commits the new
descriptor. -/
theorem C3_verifyFile_fails_closed_witness :
    verifyFile
      ⟨fun _ => false, fun _ => true, fun _ => true, fun _ => true,
        fun _ => some 3, fun _ => ".ch8", fun _ => "g.ch8", fun _ => "g",
        fun _ => "h"⟩
      (fun _ _ _ => true) (some "x") ⟨"", "", "", "", "", 0⟩ =
      (false, ⟨"", "", "", "", "", 0⟩) ∧
    verifyFile
      ⟨fun _ => true, fun _ => true, fun _ => true, fun _ => true,
        fun _ => some 3, fun _ => ".ch8", fun _ => "g.ch8", fun _ => "g",
        fun _ => "h"⟩
      (fun _ _ _ => true) (some "x") ⟨"", "", "", "", "", 0⟩ =
      (true, ⟨"x", "g.ch8", "g", ".ch8", "h", 3⟩) := by
  constructor
  · exact (C3_verifyFile_fails_closed _ (fun _ _ _ => true) "x" _).2.1 rfl _
  · exact (C3_verifyFile_fails_closed _ (fun _ _ _ => true) "x"
      _).2.2.2.2.2.2 3 rfl rfl rfl rfl rfl (by decide) rfl

/-! ## GameFileChecker::getError (GameFileChecker.hpp lines 89-91)

`getError` returns `std::move(sErrorMsg)` with a deduced `std::string`
return type: the stored string is move-constructed from, which transfers
its buffer and leaves the member empty.  The model maps the stored
message to the pair (returned message, new stored message). -/

def GameFileChecker.getError (sErrorMsg : String) : String × String :=
  (sErrorMsg, "")

/-- C9: `getError` returns the recorded reason and clears the stored
reason, so a second call with no intervening failure returns the empty
string. -/
theorem C9_getError_single_consumption (msg : String) :
    (GameFileChecker.getError msg).1 = msg ∧
    (GameFileChecker.getError (GameFileChecker.getError msg).2).1 = "" :=
  ⟨rfl, rfl⟩

end CubeChip
